import Mathlib

/-!
Shallow embedding of the traversal engine of `mcp-server-webscan`
(`src/utils/webUtils.ts`, `src/services/CrawlSiteService.ts`,
`GenerateSitemapService`, `CheckLinksService`) and proofs of the
specified properties.

Modelling conventions:
* A URL is a `String`.
* The WHATWG `URL` platform API (`new URL(href, base)` and `.origin`) is
  not part of the repository; it is abstracted as a `UrlApi` record with a
  resolution function (returning `none` where the constructor would throw)
  and an origin function.
* The network is a `Graph`: a function from URL to `Option (List String)`.
  `some hrefs` models a page whose anchors carry exactly those `href`
  attribute values, in DOM order; `none` models any fetch failure
  (network error, timeout, or the non-2xx check inside `fetchHtml`).
* `async`/`await` concurrency is serialized: in the source every
  check-then-add on the shared `visited` / `checkedUrls` set happens
  synchronously (no `await` between the check and the add), so the
  left-to-right serialization modelled here computes the same result
  list (result order is the order of `Promise.all`, which is input
  order) and the same visited set.
* The bounded recursion of `crawlPage` is expressed with a fuel
  parameter; fuel `maxDepth + 1 - depth` is exactly sufficient because
  the code prunes as soon as `depth > maxDepth` (fuel adequacy is proved
  below as `crawlPage_fuel_congr`).
-/

/-- Abstraction of the WHATWG URL platform API used by the source.
`resolve href base` models `new URL(href, base).toString()`, `none` when
the constructor throws; `origin u` models `new URL(u).origin`. -/
structure UrlApi where
  resolve : String → String → Option String
  origin : String → String

/-- The network: each URL maps to `some hrefs` (the `href` attribute
values of the page's `a[href]` elements, in DOM order) or `none` (fetch
failure). -/
def Graph := String → Option (List String)

/-- JS `s.startsWith(p)`, phrased on the character lists so that it
reduces inside the kernel. -/
def strStartsWith (s p : String) : Bool :=
  p.data.isPrefixOf s.data

/-- The basic href filter shared by `crawlPage` and `checkLinksOnPage`:
`href && !href.startsWith('#') && !href.startsWith('mailto:') &&
!href.startsWith('tel:')` (an empty string is falsy in JS). -/
def hrefPasses (href : String) : Bool :=
  href ≠ "" && !strStartsWith href "#" && !strStartsWith href "mailto:" &&
    !strStartsWith href "tel:"

/-- One step of the link-extraction loop in `crawlPage`
(`$('a[href]').each(...)`): resolve the href against the page URL, keep
it when resolution succeeds, the origin matches the page's origin and it
is not already in the `links` set.  The `links` set is modelled as a
list in insertion order (a JS `Set` iterates in insertion order). -/
def crawlLinkStep (api : UrlApi) (url : String) (links : List String) (href : String) :
    List String :=
  if hrefPasses href then
    match api.resolve href url with
    | some absoluteUrl =>
        if api.origin absoluteUrl = api.origin url ∧ absoluteUrl ∉ links then
          links ++ [absoluteUrl]
        else links
    | none => links
  else links

/-- The unique, same-origin links `crawlPage` extracts from a fetched
page (`Array.from(links)` of the source, in insertion order). -/
def pageLinks (api : UrlApi) (doc : List String) (url : String) : List String :=
  doc.foldl (crawlLinkStep api url) []

/-- The function `crawlPage(url, depth, maxDepth, visited)` of
`src/utils/webUtils.ts`, with the shared mutable `visited` set threaded
explicitly and recursion measured by `fuel`.  Returns the
discovered-URL list together with the final visited set.  A fetch
failure (`g url = none`) is swallowed by the `catch` block: the branch
returns just `[url]`. -/
def crawlPage (api : UrlApi) (g : Graph) :
    Nat → String → Nat → Nat → List String → List String × List String
  | 0, _, _, _, visited => ([], visited)
  | fuel + 1, url, depth, maxDepth, visited =>
    if depth > maxDepth ∨ url ∈ visited then ([], visited)
    else
      match g url with
      | none => ([url], url :: visited)
      | some doc =>
        (pageLinks api doc url).foldl
          (fun acc link =>
            let r := crawlPage api g fuel link (depth + 1) maxDepth acc.2
            (acc.1 ++ r.1, r.2))
          ([url], url :: visited)

/-- The loop body of the recursive expansion in `crawlPage`: crawl one
child link from the current visited set and append its result. -/
def crawlStep (api : UrlApi) (g : Graph) (fuel maxDepth depth : Nat)
    (acc : List String × List String) (link : String) : List String × List String :=
  let r := crawlPage api g fuel link depth maxDepth acc.2
  (acc.1 ++ r.1, r.2)

/-- A top-level traversal invocation: `crawlPage(url, 0, maxDepth, new Set())`
with exactly sufficient fuel. -/
def crawlPageRun (api : UrlApi) (g : Graph) (url : String) (maxDepth : Nat) : List String :=
  (crawlPage api g (maxDepth + 1) url 0 maxDepth []).1

/-- Invariant tying a `crawlPage` result to the incoming visited set
`v`: the returned URLs are duplicate-free, none of them was previously
visited, and the final visited set is exactly the returned URLs plus
`v`. -/
def CrawlInv (v : List String) (r : List String × List String) : Prop :=
  r.1.Nodup ∧ (∀ x, x ∈ r.2 ↔ x ∈ r.1 ∨ x ∈ v) ∧ ∀ x ∈ r.1, x ∉ v

/-- The interface `CrawlResult` of `src/types/crawlSiteTypes.ts`. -/
structure CrawlResult where
  crawled_urls : List String
  total_urls : Nat
  deriving Repr, DecidableEq

/-- JS `Array.from(new Set(l))`: first-occurrence deduplication in
insertion order. -/
def dedupFirst (l : List String) : List String :=
  l.foldl (fun acc u => if u ∈ acc then acc else acc ++ [u]) []

/-- The method `CrawlSiteService.crawlWebsite`: validation, crawl from a
fresh visited set, then `Array.from(new Set(urls))`.  `Except.error`
models the thrown `ValidationError`; `crawlPage` itself never throws. -/
def crawlWebsite (api : UrlApi) (g : Graph) (startUrl : String) (maxDepth : Nat) :
    Except String CrawlResult :=
  if startUrl = "" then .error "Invalid input: startUrl string is required."
  else
    let urls := crawlPageRun api g startUrl maxDepth
    let uniqueUrls := dedupFirst urls
    .ok { crawled_urls := uniqueUrls, total_urls := uniqueUrls.length }

-- A tiny concrete world for witnesses: origin is the scheme+host prefix,
-- hrefs are resolved only when absolute (enough for the witnesses).

/-- Concrete witness URL API: an href resolves to itself when it starts
with `http`, otherwise resolution fails; the origin is the scheme+host
prefix, tabulated for the handful of witness URLs. -/
def wApi : UrlApi where
  resolve href _ := if strStartsWith href "http" then some href else none
  origin u := if strStartsWith u "https://a.com" then "https://a.com"
    else if strStartsWith u "https://b.com" then "https://b.com" else u

/-- Concrete witness graph: a two-page site `a.com` with one broken page. -/
def wG : Graph := fun u =>
  if u = "https://a.com/" then some ["https://a.com/b", "https://b.com/x", "#top"]
  else if u = "https://a.com/b" then some []
  else none

/-- The links the crawler extracts from page `u` after a successful
fetch: its unique same-origin links.  A failed page has no links. -/
def linksOf (api : UrlApi) (g : Graph) (u : String) : List String :=
  match g u with
  | some doc => pageLinks api doc u
  | none => []

/-- Reachability in exactly `k` link hops through the extracted
same-origin links. -/
inductive ReachesIn (api : UrlApi) (g : Graph) : Nat → String → String → Prop
  | refl (u : String) : ReachesIn api g 0 u u
  | step {a b c : String} {k : Nat} :
      b ∈ linksOf api g a → ReachesIn api g k b c → ReachesIn api g (k + 1) a c

/-! Sitemap generation (`GenerateSitemapService.generateSitemap`).
The XML is modelled as a `List Char` so that element occurrences can be
counted and the escaping reasoned about character by character. -/

/-- The interface `SitemapResult` of the sitemap types file, with the
XML string as a character list. -/
structure SitemapResult where
  sitemapXml : List Char
  urlCount : Nat
  deriving Repr, DecidableEq

/-- The `escape` function of the `html-escaper` package used for XML
escaping: replaces each of `& < > ' "` by its entity. -/
def escapeChar (c : Char) : List Char :=
  if c = '&' then "&amp;".data
  else if c = '<' then "&lt;".data
  else if c = '>' then "&gt;".data
  else if c = '\'' then "&#39;".data
  else if c = '"' then "&quot;".data
  else [c]

/-- XML escaping of a whole string (`escape(url)` in the source),
character-list form. -/
def escapeXml (s : List Char) : List Char :=
  s.flatMap escapeChar

/-- One `<url>` entry of the generated sitemap
(`  <url>\n    <loc>${escape(url)}</loc>\n    <lastmod>${date}</lastmod> \n  </url>`).
`today` models `new Date().toISOString().split('T')[0]`. -/
def sitemapEntry (today : List Char) (url : String) : List Char :=
  "  <url>\n    <loc>".data ++ escapeXml url.data ++ "</loc>\n    <lastmod>".data ++
    today ++ "</lastmod> \n  </url>".data

/-- JS `array.join('\n')`. -/
def joinNL : List (List Char) → List Char
  | [] => []
  | [e] => e
  | e :: es => e ++ '\n' :: joinNL es

/-- The fixed XML header up to and including the newline after the
`<urlset>` open tag. -/
def sitemapHeader : List Char :=
  ("<?xml version=\"1.0\" encoding=\"UTF-8\"?>\n" ++
    "<urlset xmlns=\"http://www.sitemaps.org/schemas/sitemap/0.9\">\n").data

/-- The fixed XML footer. -/
def sitemapFooter : List Char := "\n</urlset>".data

/-- The method `GenerateSitemapService.generateSitemap`: validate, crawl
with a fresh visited set, deduplicate, truncate to `limit`, serialize.
`limit = 0` models the rejected `limit <= 0`; `maxDepth` is a `Nat`, so
the `maxDepth < 0` validation cannot fire. -/
def generateSitemap (api : UrlApi) (g : Graph) (today : List Char)
    (startUrl : String) (maxDepth limit : Nat) : Except String SitemapResult :=
  if startUrl = "" then .error "Invalid input: startUrl string is required."
  else if limit = 0 then .error "Invalid input: limit must be a positive number."
  else
    let allUrls := crawlPageRun api g startUrl maxDepth
    let uniqueUrls := dedupFirst allUrls
    let limitedUrls := uniqueUrls.take limit
    let urlEntries := joinNL (limitedUrls.map (sitemapEntry today))
    let sitemapXml := sitemapHeader ++ urlEntries ++ sitemapFooter
    .ok { sitemapXml := sitemapXml, urlCount := limitedUrls.length }

/-! Link checking (`CheckLinksService.checkLinksOnPage`). -/

/-- The interface `LinkCheckResult` of `src/types/checkLinksTypes.ts`;
the status is kept as a string mirroring the TS string-literal union. -/
structure LinkCheckResult where
  url : String
  status : String
  deriving Repr, DecidableEq

/-- State of the link-checking loop: results accumulated so far, the
`checkedUrls` set, and (for the probe-count property) the list of URLs
the reachability prober `isValidUrl` has been called on. -/
structure CheckState where
  results : List LinkCheckResult
  checkedUrls : List String
  probed : List String
  deriving Repr, DecidableEq

/-- One iteration of the `linkElements.map` loop in `checkLinksOnPage`:
filter the href, resolve it (emitting an `invalid_url` entry on
failure), skip already-checked absolute URLs, otherwise mark as checked
and probe.  `prober` models `isValidUrl`, which never throws (it
returns `false` on any failure), so the defensive inner `catch` is
unreachable. -/
def checkLinkStep (api : UrlApi) (prober : String → Bool) (pageUrl : String)
    (st : CheckState) (href : String) : CheckState :=
  if hrefPasses href then
    match api.resolve href pageUrl with
    | none =>
        { st with results := st.results ++ [{ url := href, status := "invalid_url" }] }
    | some absoluteUrl =>
        if absoluteUrl ∈ st.checkedUrls then st
        else
          { results := st.results ++
              [{ url := absoluteUrl,
                 status := if prober absoluteUrl then "valid" else "broken" }],
            checkedUrls := st.checkedUrls ++ [absoluteUrl],
            probed := st.probed ++ [absoluteUrl] }
  else st

/-- The final state of the link-checking loop over the page's hrefs. -/
def checkLinksLoop (api : UrlApi) (prober : String → Bool) (pageUrl : String)
    (hrefs : List String) (st : CheckState) : CheckState :=
  hrefs.foldl (checkLinkStep api prober pageUrl) st

/-- The method `CheckLinksService.checkLinksOnPage`: validate, fetch the
page (`ServiceError` when the fetch fails), then run the checking loop.
Result order is the `Promise.all` order, i.e. anchor order. -/
def checkLinksOnPage (api : UrlApi) (prober : String → Bool) (g : Graph)
    (pageUrl : String) : Except String (List LinkCheckResult) :=
  if pageUrl = "" then .error "Invalid input: pageUrl string is required."
  else
    match g pageUrl with
    | none => .error "Failed to fetch or process the page."
    | some hrefs =>
        .ok (checkLinksLoop api prober pageUrl hrefs
          { results := [], checkedUrls := [], probed := [] }).results

/-! Character-level substring counting, used to state that the sitemap
XML contains exactly the required number of `<url>` elements. -/

/-- Number of positions of `t` at which the (nonempty) pattern `p`
occurs as a substring. -/
def countSub (p : List Char) : List Char → Nat
  | [] => 0
  | c :: t => (if p.isPrefixOf (c :: t) then 1 else 0) + countSub p t

/-- The character `ch` does not occur among the last `k` characters of
`a`; an occurrence of a pattern starting with `ch` can then never begin
in the last `k` positions of `a`. -/
def tailFree (ch : Char) (k : Nat) (a : List Char) : Prop :=
  ch ∉ a.drop (a.length - k)

instance (ch : Char) (k : Nat) (a : List Char) : Decidable (tailFree ch k a) := by
  unfold tailFree; infer_instance

/-- Invariant of the link-checking loop: the prober was called on
pairwise distinct URLs, the `checkedUrls` set records exactly the
probed URLs, the non-`invalid_url` result entries correspond one-to-one
(in order) to the probe calls, and every status is from the closed set. -/
def CheckInv (st : CheckState) : Prop :=
  st.probed.Nodup ∧
  st.checkedUrls = st.probed ∧
  (st.results.filter (fun r => r.status != "invalid_url")).map (fun r => r.url) =
    st.probed ∧
  ∀ r ∈ st.results, r.status = "valid" ∨ r.status = "broken" ∨ r.status = "invalid_url"

/-! Further concrete worlds used by witnesses and counterexamples. -/

/-- Witness page for the link checker: one reachable link, one broken
link appearing on two anchors, one malformed href appearing twice, and
two filtered hrefs. -/
def wGcheck : Graph := fun u =>
  if u = "https://p.com/" then
    some ["https://x.com/broken", "bad::url", "https://x.com/broken", "https://x.com/ok",
      "bad::url", "#frag", "mailto:joe@x.com"]
  else none

/-- Witness prober: only `https://x.com/ok` is reachable. -/
def wProber : String → Bool := fun u => u = "https://x.com/ok"

/-- Witness graph with a failing page: the fetch of `https://a.com/b`
fails. -/
def wGfail : Graph := fun u =>
  if u = "https://a.com/" then some ["https://a.com/b", "https://b.com/x", "#top"]
  else none

/-- Witness two-page cycle: page A links to B and B links back to A. -/
def wGcycle : Graph := fun u =>
  if u = "https://a.com/" then some ["https://a.com/b"]
  else if u = "https://a.com/b" then some ["https://a.com/"]
  else none

/-- Witness network on which every fetch fails. -/
def wGnone : Graph := fun _ => none

/-! ## Basic equations and the visited-set invariant -/

/-- Unfolding equation of `crawlPage` at positive fuel, with the loop
body named. -/
theorem crawlPage_succ_eq (api : UrlApi) (g : Graph) (fuel : Nat) (url : String)
    (depth maxDepth : Nat) (visited : List String) :
    crawlPage api g (fuel + 1) url depth maxDepth visited =
      if depth > maxDepth ∨ url ∈ visited then ([], visited)
      else
        match g url with
        | none => ([url], url :: visited)
        | some doc =>
            (pageLinks api doc url).foldl (crawlStep api g fuel maxDepth (depth + 1))
              ([url], url :: visited) := rfl

/-- The crawl loop preserves the visited-set invariant. -/
theorem crawlFold_inv (api : UrlApi) (g : Graph) (fuel maxDepth depth : Nat)
    (v : List String)
    (IH : ∀ link v', CrawlInv v' (crawlPage api g fuel link depth maxDepth v')) :
    ∀ (links : List String) (acc : List String × List String),
      CrawlInv v acc →
      CrawlInv v (links.foldl (crawlStep api g fuel maxDepth depth) acc) := by
  intro links
  induction links with
  | nil => intro acc h; simpa using h
  | cons link links ih =>
    intro acc hacc
    rw [List.foldl_cons]
    apply ih
    obtain ⟨h1, h2, h3⟩ := hacc
    obtain ⟨s1, s2, s3⟩ := IH link acc.2
    simp only [crawlStep]
    refine ⟨?_, ?_, ?_⟩
    · rw [List.nodup_append]
      refine ⟨h1, s1, ?_⟩
      intro a ha hs
      exact s3 a hs ((h2 a).mpr (Or.inl ha))
    · intro x
      rw [s2 x, h2 x]
      simp only [List.mem_append]
      tauto
    · intro x hx
      rcases List.mem_append.mp hx with hx | hx
      · exact h3 x hx
      · intro hv
        exact s3 x hx ((h2 x).mpr (Or.inr hv))

/-- Main visited-set invariant of `crawlPage`. -/
theorem crawlPage_inv (api : UrlApi) (g : Graph) :
    ∀ (fuel : Nat) (u : String) (d m : Nat) (v : List String),
      CrawlInv v (crawlPage api g fuel u d m v) := by
  intro fuel
  induction fuel with
  | zero =>
    intro u d m v
    exact ⟨List.nodup_nil, fun x => by simp [crawlPage], by simp [crawlPage]⟩
  | succ fuel ih =>
    intro u d m v
    rw [crawlPage_succ_eq]
    by_cases h : d > m ∨ u ∈ v
    · rw [if_pos h]
      exact ⟨List.nodup_nil, fun x => by simp, by simp⟩
    · rw [if_neg h]
      have hu : u ∉ v := fun hv => h (Or.inr hv)
      rcases hg : g u with _ | doc
    

      · exact ⟨List.nodup_singleton u, fun x => by simp [List.mem_cons],
          by simpa using hu⟩
      · apply crawlFold_inv api g fuel m (d + 1) v (fun link v' => ih link (d + 1) m v')
        exact ⟨List.nodup_singleton u, fun x => by simp [List.mem_cons],
          by simpa using hu⟩

/-- A top-level traversal returns a duplicate-free URL list. -/
theorem crawlPageRun_nodup (api : UrlApi) (g : Graph) (u : String) (m : Nat) :
    (crawlPageRun api g u m).Nodup :=
  (crawlPage_inv api g (m + 1) u 0 m []).1

/-! ## Seed membership -/

/-- The crawl loop only ever appends to the result list. -/
theorem crawlFold_extendsAcc (api : UrlApi) (g : Graph) (fuel maxDepth depth : Nat) :
    ∀ (links : List String) (acc : List String × List String),
      acc.1 <+: (links.foldl (crawlStep api g fuel maxDepth depth) acc).1 := by
  intro links
  induction links with
  | nil => intro acc; simp
  | cons link links ih =>
    intro acc
    rw [List.foldl_cons]
    refine List.IsPrefix.trans ?_ (ih _)
    simp only [crawlStep]
    exact List.prefix_append acc.1 _

/-- A URL that is reached while unvisited and within the depth bound is
recorded in the branch's result, fetch failure or not. -/
theorem mem_crawlPage_self (api : UrlApi) (g : Graph) (fuel : Nat) {u : String}
    {d m : Nat} {v : List String} (hd : d ≤ m) (hv : u ∉ v) :
    u ∈ (crawlPage api g (fuel + 1) u d m v).1 := by
  rw [crawlPage_succ_eq]
  have hcond : ¬(d > m ∨ u ∈ v) := by
    rintro (hlt | hmem)
    · omega
    · exact hv hmem
  rw [if_neg hcond]
  rcases hg : g u with _ | doc
  · simp
  · have hpre := crawlFold_extendsAcc api g fuel m (d + 1) (pageLinks api doc u) ([u], u :: v)
    exact hpre.subset (by simp)

/-- The seed is always present in the result of a traversal. -/
theorem seed_mem_crawlPageRun (api : UrlApi) (g : Graph) (u : String) (m : Nat) :
    u ∈ crawlPageRun api g u m :=
  mem_crawlPage_self api g m (Nat.zero_le m) (List.not_mem_nil u)

/-! ## Same-origin invariant -/

/-- Every link extracted from a page shares the page's origin. -/
theorem pageLinks_origin (api : UrlApi) (url : String) :
    ∀ (doc : List String), ∀ l ∈ pageLinks api doc url, api.origin l = api.origin url := by
  have key : ∀ (doc acc : List String),
      (∀ l ∈ acc, api.origin l = api.origin url) →
      ∀ l ∈ doc.foldl (crawlLinkStep api url) acc, api.origin l = api.origin url := by
    intro doc
    induction doc with
    | nil => intro acc hacc; simpa using hacc
    | cons href doc ih =>
      intro acc hacc
      rw [List.foldl_cons]
      apply ih
      intro l hl
      by_cases hp : hrefPasses href = true
      · rcases hres : api.resolve href url with _ | absoluteUrl
        · simp only [crawlLinkStep, hp, hres, if_true] at hl
          exact hacc l hl
        · simp only [crawlLinkStep, hp, hres, if_true] at hl
          by_cases hcond : api.origin absoluteUrl = api.origin url ∧ absoluteUrl ∉ acc
          · rw [if_pos hcond] at hl
            rcases List.mem_append.mp hl with h | h
            · exact hacc l h
            · rw [List.mem_singleton.mp h]
              exact hcond.1
          · rw [if_neg hcond] at hl
            exact hacc l hl
      · simp only [crawlLinkStep, hp] at hl
        simp only [Bool.false_eq_true, if_false] at hl
        exact hacc l hl
  intro doc
  exact key doc [] (by simp)

/-- The crawl loop preserves the same-origin property of the collected
result, provided every link in the frontier part shares origin `o`. -/
theorem crawlFold_origin (api : UrlApi) (g : Graph) (fuel maxDepth depth : Nat)
    (o : String)
    (IH : ∀ link v', ∀ x ∈ (crawlPage api g fuel link depth maxDepth v').1,
      api.origin x = api.origin link) :
    ∀ (links : List String) (acc : List String × List String),
      (∀ l ∈ links, api.origin l = o) →
      (∀ x ∈ acc.1, api.origin x = o) →
      ∀ x ∈ (links.foldl (crawlStep api g fuel maxDepth depth) acc).1,
        api.origin x = o := by
  intro links
  induction links with
  | nil => intro acc _ hacc; simpa using hacc
  | cons link links ih =>
    intro acc hlinks hacc
    rw [List.foldl_cons]
    apply ih _ (fun l hl => hlinks l (List.mem_cons_of_mem link hl))
    intro x hx
    simp only [crawlStep] at hx
    rcases List.mem_append.mp hx with hx | hx
    · exact hacc x hx
    · rw [IH link acc.2 x hx]
      exact hlinks link (List.mem_cons_self link links)

/-- Every URL collected by a `crawlPage` branch shares the branch
URL's origin. -/
theorem crawlPage_origin (api : UrlApi) (g : Graph) :
    ∀ (fuel : Nat) (u : String) (d m : Nat) (v : List String),
      ∀ x ∈ (crawlPage api g fuel u d m v).1, api.origin x = api.origin u := by
  intro fuel
  induction fuel with
  | zero => intro u d m v x hx; simp [crawlPage] at hx
  | succ fuel ih =>
    intro u d m v
    rw [crawlPage_succ_eq]
    by_cases h : d > m ∨ u ∈ v
    · rw [if_pos h]; intro x hx; simp at hx
    · rw [if_neg h]
      rcases hg : g u with _ | doc
      · intro x hx
        rw [List.mem_singleton.mp hx]
      · apply crawlFold_origin api g fuel m (d + 1) (api.origin u)
          (fun link v' => ih link (d + 1) m v')
        · exact pageLinks_origin api u doc
        · intro x hx
          rw [List.mem_singleton.mp hx]

/-- Every URL in a top-level traversal result shares the seed's origin. -/
theorem crawlPageRun_origin (api : UrlApi) (g : Graph) (u : String) (m : Nat) :
    ∀ x ∈ crawlPageRun api g u m, api.origin x = api.origin u :=
  crawlPage_origin api g (m + 1) u 0 m []

/-! ## Depth bound and reachability -/

/-- The crawl loop preserves the reachability bound of the collected
result: every collected URL is reachable from `u` within the remaining
depth budget. -/
theorem crawlFold_reach (api : UrlApi) (g : Graph) (fuel m d : Nat) (u : String)
    (IH : ∀ link v', ∀ x ∈ (crawlPage api g fuel link (d + 1) m v').1,
      ∃ k, d + 1 + k ≤ m ∧ ReachesIn api g k link x) :
    ∀ (links : List String) (acc : List String × List String),
      (∀ l ∈ links, l ∈ linksOf api g u) →
      (∀ x ∈ acc.1, ∃ k, d + k ≤ m ∧ ReachesIn api g k u x) →
      ∀ x ∈ (links.foldl (crawlStep api g fuel m (d + 1)) acc).1,
        ∃ k, d + k ≤ m ∧ ReachesIn api g k u x := by
  intro links
  induction links with
  | nil => intro acc _ hacc; simpa using hacc
  | cons link links ih =>
    intro acc hlinks hacc
    rw [List.foldl_cons]
    apply ih _ (fun l hl => hlinks l (List.mem_cons_of_mem link hl))
    intro x hx
    simp only [crawlStep] at hx
    rcases List.mem_append.mp hx with hx | hx
    · exact hacc x hx
    · obtain ⟨k, hk, hr⟩ := IH link acc.2 x hx
      exact ⟨k + 1, by omega,
        ReachesIn.step (hlinks link (List.mem_cons_self link links)) hr⟩

/-- Every URL collected by a `crawlPage` branch is reachable from the
branch URL within the remaining depth budget. -/
theorem crawlPage_reach (api : UrlApi) (g : Graph) (m : Nat) :
    ∀ (fuel : Nat) (u : String) (d : Nat) (v : List String),
      ∀ x ∈ (crawlPage api g fuel u d m v).1,
        ∃ k, d + k ≤ m ∧ ReachesIn api g k u x := by
  intro fuel
  induction fuel with
  | zero => intro u d v x hx; simp [crawlPage] at hx
  | succ fuel ih =>
    intro u d v
    rw [crawlPage_succ_eq]
    by_cases h : d > m ∨ u ∈ v
    · rw [if_pos h]; intro x hx; simp at hx
    · rw [if_neg h]
      have hd : d ≤ m := by
        rcases Nat.lt_or_ge m d with hlt | hge
        · exact absurd (Or.inl hlt) h
        · exact hge
      rcases hg : g u with _ | doc
      · intro x hx
        rw [List.mem_singleton.mp hx]
        exact ⟨0, by omega, ReachesIn.refl u⟩
      · apply crawlFold_reach api g fuel m d u (fun link v' => ih link (d + 1) v')
        · intro l hl
          unfold linksOf
          rw [hg]
          exact hl
        · intro x hx
          rw [List.mem_singleton.mp hx]
          exact ⟨0, by omega, ReachesIn.refl u⟩

/-- Every URL of a top-level traversal with bound `m` is reachable from
the seed in at most `m` link hops. -/
theorem crawlPageRun_reach (api : UrlApi) (g : Graph) (u : String) (m : Nat) :
    ∀ x ∈ crawlPageRun api g u m, ∃ k ≤ m, ReachesIn api g k u x := by
  intro x hx
  obtain ⟨k, hk, hr⟩ := crawlPage_reach api g m (m + 1) u 0 [] x hx
  exact ⟨k, by omega, hr⟩

/-! ## Fuel adequacy (termination of the bounded recursion) -/

/-- Results of `crawlPage` do not depend on the fuel, as long as the
fuel covers the remaining depth budget `maxDepth + 1 - depth`: the
depth check prunes before the fuel can run out. -/
theorem crawlPage_fuel_congr (api : UrlApi) (g : Graph) (m : Nat) :
    ∀ (f₁ f₂ : Nat) (u : String) (d : Nat) (v : List String),
      m + 1 ≤ f₁ + d → m + 1 ≤ f₂ + d →
      crawlPage api g f₁ u d m v = crawlPage api g f₂ u d m v := by
  intro f₁
  induction f₁ with
  | zero =>
    intro f₂ u d v h1 _
    rcases f₂ with _ | f₂
    · rfl
    · rw [crawlPage_succ_eq, if_pos (Or.inl (by omega))]
      rfl
  | succ f₁ ih =>
    intro f₂ u d v h1 h2
    rcases f₂ with _ | f₂
    · rw [crawlPage_succ_eq, if_pos (Or.inl (by omega))]
      rfl
    · rw [crawlPage_succ_eq, crawlPage_succ_eq]
      by_cases h : d > m ∨ u ∈ v
      · rw [if_pos h, if_pos h]
      · rw [if_neg h, if_neg h]
        rcases hg : g u with _ | doc
        · rfl
        · have hstep : crawlStep api g f₁ m (d + 1) = crawlStep api g f₂ m (d + 1) := by
            funext acc link
            simp only [crawlStep]
            rw [ih f₂ link (d + 1) acc.2 (by omega) (by omega)]
          rw [hstep]

/-! ## Failure isolation -/

/-- A node whose fetch fails contributes exactly itself (the `catch`
block swallows the error after `url` was pushed): the branch terminates
with zero children. -/
theorem crawlPage_fail_node (api : UrlApi) (g : Graph) {u : String} (h : g u = none)
    (fuel d m : Nat) (v : List String) :
    crawlPage api g (fuel + 1) u d m v =
      if d > m ∨ u ∈ v then ([], v) else ([u], u :: v) := by
  rw [crawlPage_succ_eq]
  by_cases hc : d > m ∨ u ∈ v
  · rw [if_pos hc, if_pos hc]
  · rw [if_neg hc, if_neg hc, h]

/-- Replacing a failing page by a healthy page with no links changes
nothing: the whole traversal is blind to the difference. -/
theorem crawlPage_patch (api : UrlApi) (g : Graph) (u₀ : String) (hu₀ : g u₀ = none)
    (m : Nat) :
    ∀ (fuel : Nat) (u : String) (d : Nat) (v : List String),
      crawlPage api g fuel u d m v =
        crawlPage api (fun x => if x = u₀ then some [] else g x) fuel u d m v := by
  intro fuel
  induction fuel with
  | zero => intro u d v; rfl
  | succ fuel ih =>
    intro u d v
    rw [crawlPage_succ_eq, crawlPage_succ_eq]
    by_cases hc : d > m ∨ u ∈ v
    · rw [if_pos hc, if_pos hc]
    · rw [if_neg hc, if_neg hc]
      by_cases hu : u = u₀
      · subst hu
        rw [hu₀]
        simp [pageLinks]
      · simp only [if_neg hu]
        rcases hg : g u with _ | doc
        · rfl
        · have hstep : crawlStep api g fuel m (d + 1) =
              crawlStep api (fun x => if x = u₀ then some [] else g x) fuel m (d + 1) := by
            funext acc link
            simp only [crawlStep]
            rw [ih link (d + 1) acc.2]
          rw [hstep]

/-! ## Deduplication in the service layer -/

/-- JS-style first-occurrence deduplication yields a duplicate-free
list. -/
theorem dedupFirst_nodup (l : List String) : (dedupFirst l).Nodup := by
  have key : ∀ (l acc : List String), acc.Nodup →
      (l.foldl (fun acc u => if u ∈ acc then acc else acc ++ [u]) acc).Nodup := by
    intro l
    induction l with
    | nil => intro acc h; simpa using h
    | cons u l ih =>
      intro acc hacc
      rw [List.foldl_cons]
      apply ih
      by_cases hu : u ∈ acc
      · rwa [if_pos hu]
      · rw [if_neg hu, List.nodup_append]
        exact ⟨hacc, List.nodup_singleton u, fun a ha hs => hu (by
          rwa [List.mem_singleton.mp hs] at ha)⟩
  exact key l [] List.nodup_nil

/-- First-occurrence deduplication of an already duplicate-free list is
the identity. -/
theorem dedupFirst_eq_self {l : List String} (h : l.Nodup) : dedupFirst l = l := by
  have key : ∀ (l acc : List String), (acc ++ l).Nodup →
      l.foldl (fun acc u => if u ∈ acc then acc else acc ++ [u]) acc = acc ++ l := by
    intro l
    induction l with
    | nil => intro acc _; simp
    | cons u l ih =>
      intro acc hacc
      have hu : u ∉ acc := by
        intro hmem
        have := List.disjoint_of_nodup_append hacc
        exact this hmem (List.mem_cons_self u l)
      rw [List.foldl_cons, if_neg hu, ih (acc ++ [u]) (by simpa using hacc)]
      simp
  simpa using key l [] (by simpa using h)

/-! ## The two-page cycle -/

/-- Traversal of the cycle A links-to B links-to A from seed A, for any
depth bound of at least 1, yields exactly the list `[A, B]`. -/
theorem cycle_run (m : Nat) (hm : 1 ≤ m) :
    crawlPageRun wApi wGcycle "https://a.com/" m =
      ["https://a.com/", "https://a.com/b"] := by
  obtain ⟨m', rfl⟩ : ∃ m', m = m' + 1 := ⟨m - 1, by omega⟩
  unfold crawlPageRun
  have hga : wGcycle "https://a.com/" = some ["https://a.com/b"] := by decide
  have hgb : wGcycle "https://a.com/b" = some ["https://a.com/"] := by decide
  have hpa : pageLinks wApi ["https://a.com/b"] "https://a.com/" =
      ["https://a.com/b"] := by decide
  have hpb : pageLinks wApi ["https://a.com/"] "https://a.com/b" =
      ["https://a.com/"] := by decide
  have hs2 : ∀ v : List String, "https://a.com/" ∈ v →
      crawlPage wApi wGcycle m' "https://a.com/" 2 (m' + 1) v = ([], v) := by
    intro v hv
    rcases m' with _ | m''
    · rfl
    · rw [crawlPage_succ_eq, if_pos (Or.inr hv)]
  rw [crawlPage_succ_eq]
  rw [if_neg (by simp)]
  rw [hga]
  simp only [hpa, List.foldl_cons, List.foldl_nil, crawlStep]
  rw [crawlPage_succ_eq]
  rw [if_neg (by
    rintro (h | h)
    · omega
    · simp at h)]
  rw [hgb]
  simp only [hpb, List.foldl_cons, List.foldl_nil, crawlStep]
  rw [hs2 _ (by simp)]
  rfl

/-! ## Claims about the traversal engine -/

/-- C1: for every traversal invocation (crawlPage seeded at depth 0 with
any maxDepth and a fresh empty visited set), the returned URL list
contains no duplicates, and the same holds for the `crawled_urls` list
returned by `crawlWebsite`. -/
theorem claim_C1_no_duplicate_urls (api : UrlApi) (g : Graph) (u : String) (m : Nat) :
    (crawlPageRun api g u m).Nodup ∧
      ∀ r, crawlWebsite api g u m = Except.ok r → r.crawled_urls.Nodup := by
  refine ⟨crawlPageRun_nodup api g u m, ?_⟩
  intro r hr
  unfold crawlWebsite at hr
  by_cases hu : u = ""
  · rw [if_pos hu] at hr
    cases hr
  · rw [if_neg hu] at hr
    simp only [Except.ok.injEq] at hr
    rw [← hr]
    exact dedupFirst_nodup _

/-- Witness for C1 at a concrete two-page site. -/
theorem claim_C1_witness :
    (crawlPageRun wApi wG "https://a.com/" 1).Nodup ∧
      (CrawlResult.mk ["https://a.com/", "https://a.com/b"] 2).crawled_urls.Nodup :=
  ⟨(claim_C1_no_duplicate_urls wApi wG "https://a.com/" 1).1,
   (claim_C1_no_duplicate_urls wApi wG "https://a.com/" 1).2
     (CrawlResult.mk ["https://a.com/", "https://a.com/b"] 2) rfl⟩

/-- C2: every URL in the result of a traversal shares the seed's
origin, even though the filter in the code compares each link's origin
against the current page's URL; the inductive origin invariant makes
the two equivalent. -/
theorem claim_C2_same_origin_scope (api : UrlApi) (g : Graph) (u : String) (m : Nat) :
    ∀ x ∈ crawlPageRun api g u m, api.origin x = api.origin u :=
  crawlPageRun_origin api g u m

/-- Witness for C2: the discovered second page shares the seed's
origin. -/
theorem claim_C2_witness :
    "https://a.com/b" ∈ crawlPageRun wApi wG "https://a.com/" 1 ∧
      wApi.origin "https://a.com/b" = wApi.origin "https://a.com/" :=
  ⟨by decide,
   claim_C2_same_origin_scope wApi wG "https://a.com/" 1 "https://a.com/b" (by decide)⟩

/-- C3: the seed is always present in the result, and every URL in the
result of a traversal with bound `m` is reachable from the seed in at
most `m` link hops. -/
theorem claim_C3_depth_and_seed (api : UrlApi) (g : Graph) (u : String) (m : Nat) :
    u ∈ crawlPageRun api g u m ∧
      ∀ x ∈ crawlPageRun api g u m, ∃ k ≤ m, ReachesIn api g k u x :=
  ⟨seed_mem_crawlPageRun api g u m, crawlPageRun_reach api g u m⟩

/-- Witness for C3 at a concrete two-page site. -/
theorem claim_C3_witness :
    "https://a.com/" ∈ crawlPageRun wApi wG "https://a.com/" 1 ∧
      ∃ k ≤ 1, ReachesIn wApi wG k "https://a.com/" "https://a.com/b" :=
  ⟨(claim_C3_depth_and_seed wApi wG "https://a.com/" 1).1,
   (claim_C3_depth_and_seed wApi wG "https://a.com/" 1).2 "https://a.com/b" (by decide)⟩

/-- C5: the bounded recursion never exhausts its fuel (any fuel beyond
`maxDepth + 1` computes the same result, on every graph, cyclic ones
included), and on the concrete two-page cycle every depth bound of at
least 1 yields A and B exactly once each. -/
theorem claim_C5_termination_and_cycle :
    (∀ (api : UrlApi) (g : Graph) (u : String) (m extra : Nat),
        crawlPage api g (m + 1 + extra) u 0 m [] = crawlPage api g (m + 1) u 0 m []) ∧
      ∀ m, 1 ≤ m →
        crawlPageRun wApi wGcycle "https://a.com/" m =
            ["https://a.com/", "https://a.com/b"] ∧
          (crawlPageRun wApi wGcycle "https://a.com/" m).count "https://a.com/" = 1 ∧
          (crawlPageRun wApi wGcycle "https://a.com/" m).count "https://a.com/b" = 1 := by
  constructor
  · intro api g u m extra
    exact crawlPage_fuel_congr api g m (m + 1 + extra) (m + 1) u 0 [] (by omega) (by omega)
  · intro m hm
    refine ⟨cycle_run m hm, ?_, ?_⟩ <;> rw [cycle_run m hm] <;> decide

/-- Witness for C5 at depth bound 1. -/
theorem claim_C5_witness :
    1 ≤ 1 ∧
      (crawlPageRun wApi wGcycle "https://a.com/" 1 =
          ["https://a.com/", "https://a.com/b"] ∧
        (crawlPageRun wApi wGcycle "https://a.com/" 1).count "https://a.com/" = 1 ∧
        (crawlPageRun wApi wGcycle "https://a.com/" 1).count "https://a.com/b" = 1) :=
  ⟨by decide, claim_C5_termination_and_cycle.2 1 (by decide)⟩

/-- C6: a URL whose fetch fails is still recorded in the result (it is
recorded before the fetch), the rest of the traversal is exactly as if
the failing page were a healthy page without links, and the overall
crawl call returns a successful result. -/
theorem claim_C6_failure_isolation (api : UrlApi) (g : Graph) (u seed : String)
    (m : Nat) (hfail : g u = none) (hseed : seed ≠ "") :
    (∀ (fuel d : Nat) (v : List String), d ≤ m → u ∉ v →
        u ∈ (crawlPage api g (fuel + 1) u d m v).1) ∧
      crawlWebsite api g seed m =
        crawlWebsite api (fun x => if x = u then some [] else g x) seed m ∧
      ∃ r, crawlWebsite api g seed m = Except.ok r := by
  refine ⟨?_, ?_, ?_⟩
  · intro fuel d v hd hv
    exact mem_crawlPage_self api g fuel hd hv
  · unfold crawlWebsite
    rw [if_neg hseed, if_neg hseed]
    unfold crawlPageRun
    rw [crawlPage_patch api g u hfail m (m + 1) seed 0 []]
  · unfold crawlWebsite
    rw [if_neg hseed]
    exact ⟨_, rfl⟩

/-- Witness for C6: the broken second page of the concrete site. -/
theorem claim_C6_witness :
    wGfail "https://a.com/b" = none ∧ "https://a.com/" ≠ "" ∧
      ((∀ (fuel d : Nat) (v : List String), d ≤ 1 → "https://a.com/b" ∉ v →
          "https://a.com/b" ∈
            (crawlPage wApi wGfail (fuel + 1) "https://a.com/b" d 1 v).1) ∧
        crawlWebsite wApi wGfail "https://a.com/" 1 =
          crawlWebsite wApi
            (fun x => if x = "https://a.com/b" then some [] else wGfail x)
            "https://a.com/" 1 ∧
        ∃ r, crawlWebsite wApi wGfail "https://a.com/" 1 = Except.ok r) :=
  ⟨by decide, by decide,
   claim_C6_failure_isolation wApi wGfail "https://a.com/b" "https://a.com/" 1
     (by decide) (by decide)⟩

/-- C9 (implicit): when the seed's own fetch fails, `crawlWebsite` does
not raise; it returns `crawled_urls = [seed]`, `total_urls = 1`,
indistinguishable from a healthy seed page without links. -/
theorem claim_C9_seed_fetch_failure (api : UrlApi) (g : Graph) (seed : String) (m : Nat)
    (hfail : g seed = none) (hseed : seed ≠ "") :
    crawlWebsite api g seed m = Except.ok (CrawlResult.mk [seed] 1) ∧
      crawlWebsite api g seed m =
        crawlWebsite api (fun x => if x = seed then some [] else g x) seed m := by
  have hrun : crawlPageRun api g seed m = [seed] := by
    unfold crawlPageRun
    rw [crawlPage_fail_node api g hfail m 0 m [], if_neg (by simp)]
  constructor
  · unfold crawlWebsite
    rw [if_neg hseed]
    simp only [hrun]
    simp [dedupFirst]
  · unfold crawlWebsite
    rw [if_neg hseed, if_neg hseed]
    unfold crawlPageRun
    rw [crawlPage_patch api g seed hfail m (m + 1) seed 0 []]

/-- Witness for C9: a completely unreachable network. -/
theorem claim_C9_witness :
    wGnone "https://a.com/" = none ∧ "https://a.com/" ≠ "" ∧
      (crawlWebsite wApi wGnone "https://a.com/" 2 =
          Except.ok (CrawlResult.mk ["https://a.com/"] 1) ∧
        crawlWebsite wApi wGnone "https://a.com/" 2 =
          crawlWebsite wApi
            (fun x => if x = "https://a.com/" then some [] else wGnone x)
            "https://a.com/" 2) :=
  ⟨rfl, by decide,
   claim_C9_seed_fetch_failure wApi wGnone "https://a.com/" 2 rfl (by decide)⟩

/-- C4, counterexample: a crawl in which the fetch of one enqueued URL
fails returns a result identical to the crawl in which that page is
healthy and linkless — the returned result carries no error list and no
`(url, reason)` record anywhere; it is only the bare URL list with its
count. -/
theorem claim_C4_counterexample :
    crawlWebsite wApi wGfail "https://a.com/" 1 = crawlWebsite wApi wG "https://a.com/" 1 ∧
      crawlWebsite wApi wGfail "https://a.com/" 1 =
        Except.ok (CrawlResult.mk ["https://a.com/", "https://a.com/b"] 2) :=
  ⟨rfl, rfl⟩

/-- C4, amended: the traversal result carries only the discovered URLs;
when fetching an enqueued, unvisited, in-depth URL fails, the branch
returns exactly that URL with zero children and records no error in the
result. -/
theorem claim_C4_amended (api : UrlApi) (g : Graph) {u : String} (hfail : g u = none)
    (fuel d m : Nat) (v : List String) (hd : d ≤ m) (hv : u ∉ v) :
    crawlPage api g (fuel + 1) u d m v = ([u], u :: v) := by
  rw [crawlPage_fail_node api g hfail fuel d m v]
  rw [if_neg (by
    rintro (h | h)
    · omega
    · exact hv h)]

/-- Witness for the amended C4. -/
theorem claim_C4_amended_witness :
    wGfail "https://a.com/b" = none ∧ (1 : Nat) ≤ 1 ∧
      "https://a.com/b" ∉ (["https://a.com/"] : List String) ∧
      crawlPage wApi wGfail 1 "https://a.com/b" 1 1 ["https://a.com/"] =
        (["https://a.com/b"], ["https://a.com/b", "https://a.com/"]) :=
  ⟨by decide, by decide, by decide,
   claim_C4_amended wApi wGfail (by decide) 0 1 1 ["https://a.com/"] (by decide) (by decide)⟩

/-! ## Link checking -/

/-- One step of the link-checking loop preserves its invariant. -/
theorem checkLinkStep_inv (api : UrlApi) (prober : String → Bool) (pageUrl : String)
    (st : CheckState) (href : String) (h : CheckInv st) :
    CheckInv (checkLinkStep api prober pageUrl st href) := by
  obtain ⟨h1, h2, h3, h4⟩ := h
  unfold checkLinkStep
  by_cases hp : hrefPasses href = true
  · rw [if_pos hp]
    rcases hres : api.resolve href pageUrl with _ | a
    · refine ⟨h1, h2, ?_, ?_⟩
      · simp only [List.filter_append, List.map_append, List.filter_cons, List.filter_nil,
          bne_self_eq_false, Bool.false_eq_true, if_false, List.map_nil, List.append_nil]
        exact h3
      · intro r hr
        rcases List.mem_append.mp hr with hr | hr
        · exact h4 r hr
        · rw [List.mem_singleton.mp hr]
          exact Or.inr (Or.inr rfl)
    · simp only []
      by_cases hdup : a ∈ st.checkedUrls
      · rw [if_pos hdup]
        exact ⟨h1, h2, h3, h4⟩
      · rw [if_neg hdup]
        have hanp : a ∉ st.probed := by rwa [h2] at hdup
        have hstat2 : ((if prober a then "valid" else "broken") != "invalid_url") = true := by
          by_cases hpr : prober a <;> simp [hpr]
        refine ⟨?_, ?_, ?_, ?_⟩
        · rw [List.nodup_append]
          exact ⟨h1, List.nodup_singleton a, fun x hx hs =>
            hanp (by rwa [List.mem_singleton.mp hs] at hx)⟩
        · rw [h2]
        · simp only [List.filter_append, List.map_append, List.filter_cons, List.filter_nil,
            hstat2, if_true, List.map_cons, List.map_nil]
          rw [h3]
        · intro r hr
          rcases List.mem_append.mp hr with hr | hr
          · exact h4 r hr
          · rw [List.mem_singleton.mp hr]
            by_cases hpr : prober a <;> simp [hpr]
  · rw [if_neg hp]
    exact ⟨h1, h2, h3, h4⟩

/-- The link-checking loop preserves its invariant. -/
theorem checkLinksLoop_inv (api : UrlApi) (prober : String → Bool) (pageUrl : String) :
    ∀ (hrefs : List String) (st : CheckState), CheckInv st →
      CheckInv (checkLinksLoop api prober pageUrl hrefs st) := by
  intro hrefs
  induction hrefs with
  | nil => intro st h; exact h
  | cons href hrefs ih =>
    intro st h
    exact ih _ (checkLinkStep_inv api prober pageUrl st href h)

/-- The `checkedUrls` set of the link-checking loop only grows. -/
theorem checkLinksLoop_checked_mono (api : UrlApi) (prober : String → Bool)
    (pageUrl : String) :
    ∀ (hrefs : List String) (st : CheckState),
      st.checkedUrls <+: (checkLinksLoop api prober pageUrl hrefs st).checkedUrls := by
  intro hrefs
  induction hrefs with
  | nil => intro st; exact List.prefix_refl _
  | cons href hrefs ih =>
    intro st
    refine List.IsPrefix.trans ?_ (ih (checkLinkStep api prober pageUrl st href))
    unfold checkLinkStep
    by_cases hp : hrefPasses href = true
    · rw [if_pos hp]
      rcases api.resolve href pageUrl with _ | a
      · exact List.prefix_refl _
      · simp only []
        by_cases hdup : a ∈ st.checkedUrls
        · rw [if_pos hdup]
        · rw [if_neg hdup]
          exact List.prefix_append _ _
    · rw [if_neg hp]

/-- An href that passes the filter and resolves ends up in the
`checkedUrls` set. -/
theorem checkLinksLoop_checked_of_resolve (api : UrlApi) (prober : String → Bool)
    (pageUrl : String) {h a : String} (hpass : hrefPasses h = true)
    (hres : api.resolve h pageUrl = some a) :
    ∀ (hrefs : List String) (st : CheckState), h ∈ hrefs →
      a ∈ (checkLinksLoop api prober pageUrl hrefs st).checkedUrls := by
  intro hrefs
  induction hrefs with
  | nil => intro st hmem; cases hmem
  | cons x hrefs ih =>
    intro st hmem
    rcases List.mem_cons.mp hmem with rfl | hmem
    · have hstep : a ∈ (checkLinkStep api prober pageUrl st h).checkedUrls := by
        unfold checkLinkStep
        rw [if_pos hpass, hres]
        simp only []
        by_cases hdup : a ∈ st.checkedUrls
        · rwa [if_pos hdup]
        · rw [if_neg hdup]
          simp
      exact (checkLinksLoop_checked_mono api prober pageUrl hrefs _).subset hstep
    · exact ih _ hmem

/-- An href that passes the filter but fails resolution contributes one
`invalid_url` entry (with the raw href as its `url`) per occurrence:
the loop never deduplicates such entries. -/
theorem checkLinksLoop_invalid_count (api : UrlApi) (prober : String → Bool)
    (pageUrl : String) {h : String} (hpass : hrefPasses h = true)
    (hres : api.resolve h pageUrl = none) :
    ∀ (hrefs : List String) (st : CheckState),
      ((checkLinksLoop api prober pageUrl hrefs st).results.filter
          (fun r => r.url == h && r.status == "invalid_url")).length =
        (st.results.filter (fun r => r.url == h && r.status == "invalid_url")).length +
          hrefs.count h := by
  intro hrefs
  induction hrefs with
  | nil => intro st; simp [checkLinksLoop]
  | cons x hrefs ih =>
    intro st
    have hloop : checkLinksLoop api prober pageUrl (x :: hrefs) st =
        checkLinksLoop api prober pageUrl hrefs (checkLinkStep api prober pageUrl st x) :=
      rfl
    rw [hloop, ih]
    by_cases hx : x = h
    · subst hx
      have hstep : (checkLinkStep api prober pageUrl st x).results =
          st.results ++ [{ url := x, status := "invalid_url" }] := by
        unfold checkLinkStep
        rw [if_pos hpass, hres]
      rw [hstep]
      simp only [List.filter_append, List.length_append, List.filter_cons, List.filter_nil,
        beq_self_eq_true, Bool.and_self, if_true, List.length_cons, List.length_nil]
      rw [List.count_cons_self]
      omega
    · have hstep : ((checkLinkStep api prober pageUrl st x).results.filter
          (fun r => r.url == h && r.status == "invalid_url")) =
          (st.results.filter (fun r => r.url == h && r.status == "invalid_url")) := by
        unfold checkLinkStep
        by_cases hpx : hrefPasses x = true
        · rw [if_pos hpx]
          rcases hrx : api.resolve x pageUrl with _ | a
          · simp only []
            rw [List.filter_append]
            have : (List.filter (fun r => r.url == h && r.status == "invalid_url")
                [({ url := x, status := "invalid_url" } : LinkCheckResult)]) = [] := by
              simp [List.filter_cons, hx]
            rw [this, List.append_nil]
          · simp only []
            by_cases hdup : a ∈ st.checkedUrls
            · rw [if_pos hdup]
            · rw [if_neg hdup]
              simp only []
              rw [List.filter_append]
              have : (List.filter (fun r => r.url == h && r.status == "invalid_url")
                  [({ url := a, status := if prober a then "valid" else "broken" } :
                    LinkCheckResult)]) = [] := by
                by_cases hpr : prober a <;> simp [List.filter_cons, hpr]
              rw [this, List.append_nil]
        · rw [if_neg hpx]
      rw [hstep, List.count_cons_of_ne (Ne.symm hx)]
  
/-- Every `invalid_url` entry produced by the loop carries a raw href
of the page that passed the filter and failed resolution. -/
theorem checkLinksLoop_invalid_sound (api : UrlApi) (prober : String → Bool)
    (pageUrl : String) (H : List String) :
    ∀ (hrefs : List String) (st : CheckState), (∀ x ∈ hrefs, x ∈ H) →
      (∀ r ∈ st.results, r.status = "invalid_url" →
        hrefPasses r.url = true ∧ api.resolve r.url pageUrl = none ∧ r.url ∈ H) →
      ∀ r ∈ (checkLinksLoop api prober pageUrl hrefs st).results,
        r.status = "invalid_url" →
        hrefPasses r.url = true ∧ api.resolve r.url pageUrl = none ∧ r.url ∈ H := by
  intro hrefs
  induction hrefs with
  | nil => intro st _ hst; exact hst
  | cons x hrefs ih =>
    intro st hsub hst
    apply ih (checkLinkStep api prober pageUrl st x)
      (fun y hy => hsub y (List.mem_cons_of_mem x hy))
    intro r hr hinv
    unfold checkLinkStep at hr
    by_cases hpx : hrefPasses x = true
    · rw [if_pos hpx] at hr
      rcases hrx : api.resolve x pageUrl with _ | a
      · rw [hrx] at hr
        simp only [] at hr
        rcases List.mem_append.mp hr with hr | hr
        · exact hst r hr hinv
        · rw [List.mem_singleton.mp hr]
          exact ⟨hpx, hrx, hsub x (List.mem_cons_self x hrefs)⟩
      · rw [hrx] at hr
        simp only [] at hr
        by_cases hdup : a ∈ st.checkedUrls
        · rw [if_pos hdup] at hr
          exact hst r hr hinv
        · rw [if_neg hdup] at hr
          rcases List.mem_append.mp hr with hr | hr
          · exact hst r hr hinv
          · rw [List.mem_singleton.mp hr] at hinv
            by_cases hpr : prober a <;> simp [hpr] at hinv
    · rw [if_neg hpx] at hr
      exact hst r hr hinv

/-- C7: `checkLinksOnPage` deduplicates probe calls by resolved absolute
URL — the prober is called on pairwise distinct URLs, the
non-`invalid_url` result entries correspond one-to-one to the probe
calls, every status is from the closed set, and every href that
resolves to some absolute URL is probed exactly once and yields exactly
one result entry for that URL. -/
theorem claim_C7_probe_dedup (api : UrlApi) (prober : String → Bool) (g : Graph)
    (pageUrl : String) (hrefs : List String) (hok : g pageUrl = some hrefs)
    (hp : pageUrl ≠ "") :
    ∃ results,
      checkLinksOnPage api prober g pageUrl = Except.ok results ∧
      results = (checkLinksLoop api prober pageUrl hrefs
        { results := [], checkedUrls := [], probed := [] }).results ∧
      (∀ r ∈ results, r.status = "valid" ∨ r.status = "broken" ∨ r.status = "invalid_url") ∧
      (checkLinksLoop api prober pageUrl hrefs
        { results := [], checkedUrls := [], probed := [] }).probed.Nodup ∧
      (results.filter (fun r => r.status != "invalid_url")).map (fun r => r.url) =
        (checkLinksLoop api prober pageUrl hrefs
          { results := [], checkedUrls := [], probed := [] }).probed ∧
      ∀ href a, href ∈ hrefs → hrefPasses href = true →
        api.resolve href pageUrl = some a →
        (checkLinksLoop api prober pageUrl hrefs
            { results := [], checkedUrls := [], probed := [] }).probed.count a = 1 ∧
        (results.filter (fun r => r.url == a && r.status != "invalid_url")).length = 1 := by
  obtain ⟨hnd, hchk, hmap, hstat⟩ :=
    checkLinksLoop_inv api prober pageUrl hrefs
      { results := [], checkedUrls := [], probed := [] }
      ⟨List.nodup_nil, rfl, rfl, by simp⟩
  refine ⟨_, ?_, rfl, hstat, hnd, hmap, ?_⟩
  · unfold checkLinksOnPage
    rw [if_neg hp, hok]
  · intro href a hmem hpass hres
    have ha : a ∈ (checkLinksLoop api prober pageUrl hrefs
        { results := [], checkedUrls := [], probed := [] }).probed := by
      rw [← hchk]
      exact checkLinksLoop_checked_of_resolve api prober pageUrl hpass hres hrefs _ hmem
    refine ⟨List.count_eq_one_of_mem hnd ha, ?_⟩
    rw [← List.filter_filter, List.countP_eq_length_filter
      (fun (r : LinkCheckResult) => r.url == a) _ |>.symm]
    have hcc : (checkLinksLoop api prober pageUrl hrefs
        { results := [], checkedUrls := [], probed := [] }).probed.count a = 1 :=
      List.count_eq_one_of_mem hnd ha
    rw [← hmap] at hcc
    rw [List.count, List.countP_map] at hcc
    exact hcc

/-- Witness for C7: a page with two anchors to the same broken URL, one
reachable URL, and a twice-repeated malformed href. -/
theorem claim_C7_witness :
    ∃ results,
      checkLinksOnPage wApi wProber wGcheck "https://p.com/" = Except.ok results ∧
      results = (checkLinksLoop wApi wProber "https://p.com/"
        ["https://x.com/broken", "bad::url", "https://x.com/broken", "https://x.com/ok",
          "bad::url", "#frag", "mailto:joe@x.com"]
        { results := [], checkedUrls := [], probed := [] }).results ∧
      (∀ r ∈ results, r.status = "valid" ∨ r.status = "broken" ∨ r.status = "invalid_url") ∧
      (checkLinksLoop wApi wProber "https://p.com/"
        ["https://x.com/broken", "bad::url", "https://x.com/broken", "https://x.com/ok",
          "bad::url", "#frag", "mailto:joe@x.com"]
        { results := [], checkedUrls := [], probed := [] }).probed.Nodup ∧
      (results.filter (fun r => r.status != "invalid_url")).map (fun r => r.url) =
        (checkLinksLoop wApi wProber "https://p.com/"
          ["https://x.com/broken", "bad::url", "https://x.com/broken", "https://x.com/ok",
            "bad::url", "#frag", "mailto:joe@x.com"]
          { results := [], checkedUrls := [], probed := [] }).probed ∧
      ∀ href a, href ∈ ["https://x.com/broken", "bad::url", "https://x.com/broken",
          "https://x.com/ok", "bad::url", "#frag", "mailto:joe@x.com"] →
        hrefPasses href = true → wApi.resolve href "https://p.com/" = some a →
        (checkLinksLoop wApi wProber "https://p.com/"
            ["https://x.com/broken", "bad::url", "https://x.com/broken", "https://x.com/ok",
              "bad::url", "#frag", "mailto:joe@x.com"]
            { results := [], checkedUrls := [], probed := [] }).probed.count a = 1 ∧
        (results.filter (fun r => r.url == a && r.status != "invalid_url")).length = 1 :=
  claim_C7_probe_dedup wApi wProber wGcheck "https://p.com/"
    ["https://x.com/broken", "bad::url", "https://x.com/broken", "https://x.com/ok",
      "bad::url", "#frag", "mailto:joe@x.com"] (by decide) (by decide)

/-- C10 (implicit): a malformed href that passes the basic filter
produces one `invalid_url` entry per anchor occurrence, carrying the
raw href text; such entries bypass the dedup set. -/
theorem claim_C10_invalid_not_deduped (api : UrlApi) (prober : String → Bool) (g : Graph)
    (pageUrl : String) (hrefs : List String) (h : String) (hok : g pageUrl = some hrefs)
    (hp : pageUrl ≠ "") (hpass : hrefPasses h = true)
    (hres : api.resolve h pageUrl = none) :
    ∃ results,
      checkLinksOnPage api prober g pageUrl = Except.ok results ∧
      (results.filter (fun r => r.url == h && r.status == "invalid_url")).length =
        hrefs.count h ∧
      ∀ r ∈ results, r.status = "invalid_url" →
        hrefPasses r.url = true ∧ api.resolve r.url pageUrl = none ∧ r.url ∈ hrefs := by
  refine ⟨(checkLinksLoop api prober pageUrl hrefs
      { results := [], checkedUrls := [], probed := [] }).results, ?_, ?_, ?_⟩
  · unfold checkLinksOnPage
    rw [if_neg hp, hok]
  · rw [checkLinksLoop_invalid_count api prober pageUrl hpass hres hrefs
      { results := [], checkedUrls := [], probed := [] }]
    simp
  · exact checkLinksLoop_invalid_sound api prober pageUrl hrefs hrefs
      { results := [], checkedUrls := [], probed := [] } (fun x hx => hx) (by simp)

/-- Witness for C10: the malformed href `bad::url` appears on two
anchors and yields two `invalid_url` entries. -/
theorem claim_C10_witness :
    ∃ results,
      checkLinksOnPage wApi wProber wGcheck "https://p.com/" = Except.ok results ∧
      (results.filter (fun r => r.url == "bad::url" && r.status == "invalid_url")).length =
        (["https://x.com/broken", "bad::url", "https://x.com/broken", "https://x.com/ok",
          "bad::url", "#frag", "mailto:joe@x.com"] : List String).count "bad::url" ∧
      ∀ r ∈ results, r.status = "invalid_url" →
        hrefPasses r.url = true ∧ wApi.resolve r.url "https://p.com/" = none ∧
          r.url ∈ ["https://x.com/broken", "bad::url", "https://x.com/broken",
            "https://x.com/ok", "bad::url", "#frag", "mailto:joe@x.com"] :=
  claim_C10_invalid_not_deduped wApi wProber wGcheck "https://p.com/"
    ["https://x.com/broken", "bad::url", "https://x.com/broken", "https://x.com/ok",
      "bad::url", "#frag", "mailto:joe@x.com"] "bad::url"
    (by decide) (by decide) (by decide) (by decide)

/-! ## Counting substring occurrences -/

theorem countSub_nil (p : List Char) : countSub p [] = 0 := rfl

theorem countSub_cons (p : List Char) (c : Char) (t : List Char) :
    countSub p (c :: t) = (if p.isPrefixOf (c :: t) then 1 else 0) + countSub p t := rfl

/-- A pattern occurrence cannot start at a character that differs from
the pattern's head. -/
theorem countSub_head_ne {ch c : Char} (p' : List Char) (hne : c ≠ ch) (t : List Char) :
    countSub (ch :: p') (c :: t) = countSub (ch :: p') t := by
  rw [countSub_cons]
  have hfalse : (ch :: p').isPrefixOf (c :: t) = false := by
    rw [show ((ch :: p').isPrefixOf (c :: t)) = (ch == c && p'.isPrefixOf t) from rfl]
    simp [Ne.symm hne]
  rw [hfalse]
  simp

/-- A text avoiding the pattern's head character has no occurrences. -/
theorem countSub_of_not_mem {ch : Char} (p' : List Char) {t : List Char} (h : ch ∉ t) :
    countSub (ch :: p') t = 0 := by
  induction t with
  | nil => rfl
  | cons c t ih =>
    have hc : c ≠ ch := fun he => h (by rw [← he]; exact List.mem_cons_self c t)
    rw [countSub_head_ne p' hc]
    exact ih fun hm => h (List.mem_cons_of_mem c hm)

/-- A pattern no longer than `a` is a prefix of `a ++ b` exactly when it
is a prefix of `a`. -/
theorem isPrefixOf_append_of_le {p a : List Char} (b : List Char)
    (hlen : p.length ≤ a.length) :
    p.isPrefixOf (a ++ b) = p.isPrefixOf a := by
  rw [Bool.eq_iff_iff, List.isPrefixOf_iff_prefix, List.isPrefixOf_iff_prefix]
  constructor
  · intro h
    rw [List.prefix_iff_eq_take] at h ⊢
    rw [List.take_append_eq_append_take, Nat.sub_eq_zero_of_le hlen, List.take_zero,
      List.append_nil] at h
    exact h
  · intro h
    exact h.trans (List.prefix_append a b)

/-- Dropping more yields a subset of dropping less. -/
theorem drop_subset_drop (l : List Char) {m n : Nat} (h : n ≤ m) :
    l.drop m ⊆ l.drop n := by
  intro x hx
  have heq : l.drop m = (l.drop n).drop (m - n) := by
    rw [List.drop_drop]
    congr 1
    omega
  rw [heq] at hx
  exact List.drop_subset _ _ hx

/-- A character missing from the whole list is missing from its tail
region. -/
theorem tailFree_of_not_mem {ch : Char} (k : Nat) {a : List Char} (h : ch ∉ a) :
    tailFree ch k a := fun hm => h (List.drop_subset _ _ hm)

/-- The tail region of `a` sits inside the tail region of `c :: a`. -/
theorem tailFree_tail {ch c : Char} {k : Nat} {a : List Char}
    (h : tailFree ch k (c :: a)) : tailFree ch k a := by
  intro hm
  apply h
  have h1 : (c :: a).drop (a.length - k + 1) = a.drop (a.length - k) := rfl
  have h2 : (c :: a).length - k ≤ a.length - k + 1 := by
    simp only [List.length_cons]
    omega
  exact drop_subset_drop (c :: a) h2 (h1 ▸ hm)

/-- Appending in front of a list whose tail region is clean keeps the
tail region clean, provided the appended-to part covers it. -/
theorem tailFree_append_right {ch : Char} {k : Nat} {c : List Char} (x : List Char)
    (hk : k ≤ c.length) (h : tailFree ch k c) : tailFree ch k (x ++ c) := by
  intro hm
  rw [List.drop_append_eq_append_drop] at hm
  rcases List.mem_append.mp hm with hm | hm
  · rw [List.drop_eq_nil_of_le (by simp only [List.length_append]; omega)] at hm
    cases hm
  · apply h
    rw [show (x ++ c).length - k - x.length = c.length - k from by
      simp only [List.length_append]; omega] at hm
    exact hm

/-- Appending a list without the head character keeps the tail region
clean. -/
theorem tailFree_append_not_mem {ch : Char} {k : Nat} {a b : List Char}
    (ha : tailFree ch k a) (hb : ch ∉ b) : tailFree ch k (a ++ b) := by
  intro hm
  rw [List.drop_append_eq_append_drop] at hm
  rcases List.mem_append.mp hm with hm | hm
  · exact ha (drop_subset_drop a (by simp only [List.length_append]; omega) hm)
  · exact hb (List.drop_subset _ _ hm)

/-- Occurrence counting distributes over append when no occurrence can
straddle the boundary: the pattern's head character does not appear in
the last `p'.length` positions of `a`. -/
theorem countSub_append {ch : Char} {p' : List Char} (a b : List Char)
    (hfree : tailFree ch p'.length a) :
    countSub (ch :: p') (a ++ b) =
      countSub (ch :: p') a + countSub (ch :: p') b := by
  induction a with
  | nil => simp [countSub_nil]
  | cons c a ih =>
    have hfree' : tailFree ch p'.length a := tailFree_tail hfree
    rw [List.cons_append, countSub_cons, countSub_cons (ch :: p') c a, ih hfree']
    have heq : (ch :: p').isPrefixOf (c :: (a ++ b)) = (ch :: p').isPrefixOf (c :: a) := by
      by_cases hlen : (ch :: p').length ≤ (c :: a).length
      · rw [← List.cons_append]
        exact isPrefixOf_append_of_le b hlen
      · have h2 : (ch :: p').isPrefixOf (c :: a) = false := by
          rw [Bool.eq_false_iff]
          intro hpre
          exact hlen (List.isPrefixOf_iff_prefix.mp hpre).length_le
        have h1 : (ch :: p').isPrefixOf (c :: (a ++ b)) = false := by
          rw [Bool.eq_false_iff]
          intro hpre
          obtain ⟨t, ht⟩ := List.isPrefixOf_iff_prefix.mp hpre
          rw [List.cons_append] at ht
          injection ht with hhead _
          apply hfree
          rw [show (c :: a).length - p'.length = 0 from by
            simp only [List.length_cons] at hlen ⊢; omega]
          rw [List.drop_zero]
          rw [← hhead]
          exact List.mem_cons_self ch a
        rw [h1, h2]
    rw [heq]
    omega

/-! ## Sitemap serialization -/

/-- XML escaping of a single character never produces `<`. -/
theorem escapeChar_no_lt (c : Char) : '<' ∉ escapeChar c := by
  unfold escapeChar
  split_ifs with h1 h2 h3 h4 h5
  · decide
  · decide
  · decide
  · decide
  · decide
  · intro hm
    exact h2 (List.mem_singleton.mp hm).symm

/-- XML-escaped text never contains `<`. -/
theorem escapeXml_no_lt (s : List Char) : '<' ∉ escapeXml s := by
  unfold escapeXml
  intro hm
  rw [List.mem_flatMap] at hm
  obtain ⟨c, _, hc⟩ := hm
  exact escapeChar_no_lt c hc

/-- Specialization of `countSub_append` to the `<url>` pattern. -/
theorem countSub_url_append (a b : List Char) (hfree : tailFree '<' 4 a) :
    countSub "<url>".data (a ++ b) =
      countSub "<url>".data a + countSub "<url>".data b :=
  countSub_append a b hfree

/-- Each serialized sitemap entry contains exactly one `<url>`
occurrence. -/
theorem sitemapEntry_count {today : List Char} (htoday : '<' ∉ today) (url : String) :
    countSub "<url>".data (sitemapEntry today url) = 1 := by
  unfold sitemapEntry
  have tfA : tailFree '<' 4 "  <url>\n    <loc>".data := by decide
  have tfB : tailFree '<' 4 "</loc>\n    <lastmod>".data := by decide
  have tfAesc : tailFree '<' 4 ("  <url>\n    <loc>".data ++ escapeXml url.data) :=
    tailFree_append_not_mem tfA (escapeXml_no_lt url.data)
  have tfAB : tailFree '<' 4 (("  <url>\n    <loc>".data ++ escapeXml url.data) ++
      "</loc>\n    <lastmod>".data) :=
    tailFree_append_right _ (by decide) tfB
  have tfABt : tailFree '<' 4 ((("  <url>\n    <loc>".data ++ escapeXml url.data) ++
      "</loc>\n    <lastmod>".data) ++ today) :=
    tailFree_append_not_mem tfAB htoday
  rw [countSub_url_append _ _ tfABt, countSub_url_append _ _ tfAB,
    countSub_url_append _ _ tfAesc, countSub_url_append _ _ tfA]
  rw [show countSub "<url>".data (escapeXml url.data) = 0 from
    countSub_of_not_mem _ (escapeXml_no_lt url.data)]
  rw [show countSub "<url>".data today = 0 from countSub_of_not_mem _ htoday]
  rw [show countSub "<url>".data "  <url>\n    <loc>".data = 1 from by decide]
  rw [show countSub "<url>".data "</loc>\n    <lastmod>".data = 0 from by decide]
  rw [show countSub "<url>".data "</lastmod> \n  </url>".data = 0 from by decide]

/-- A serialized sitemap entry is boundary-safe: its last four
characters contain no `<`. -/
theorem sitemapEntry_tailFree (today : List Char) (url : String) :
    tailFree '<' 4 (sitemapEntry today url) := by
  unfold sitemapEntry
  exact tailFree_append_right _ (by decide) (by decide)

/-- Counting `<url>` occurrences across the joined entry list followed
by a trailing part: one occurrence per entry. -/
theorem joinNL_count (F : List Char) :
    ∀ es : List (List Char),
      (∀ e ∈ es, countSub "<url>".data e = 1 ∧ tailFree '<' 4 e) →
      countSub "<url>".data (joinNL es ++ F) =
        es.length + countSub "<url>".data F := by
  intro es
  induction es with
  | nil => intro _; simp [joinNL]
  | cons e es ih =>
    intro hes
    obtain ⟨hc, ht⟩ := hes e (List.mem_cons_self e es)
    rcases es with _ | ⟨e2, es'⟩
    · rw [show joinNL [e] = e from rfl, countSub_url_append _ _ ht, hc]
      simp
    · rw [show joinNL (e :: e2 :: es') = e ++ '\n' :: joinNL (e2 :: es') from rfl]
      rw [List.append_assoc, countSub_url_append _ _ ht, hc]
      rw [show ('\n' :: joinNL (e2 :: es')) ++ F = '\n' :: (joinNL (e2 :: es') ++ F)
        from rfl]
      rw [show countSub "<url>".data ('\n' :: (joinNL (e2 :: es') ++ F)) =
          countSub ('<' :: "url>".data) ('\n' :: (joinNL (e2 :: es') ++ F)) from rfl]
      rw [countSub_head_ne _ (by decide)]
      rw [show countSub ('<' :: "url>".data) (joinNL (e2 :: es') ++ F) =
          countSub "<url>".data (joinNL (e2 :: es') ++ F) from rfl]
      rw [ih fun x hx => hes x (List.mem_cons_of_mem e hx)]
      simp only [List.length_cons]
      omega

/-- Every member of the entry list appears contiguously inside the
joined string. -/
theorem joinNL_mem_split {e : List Char} :
    ∀ es : List (List Char), e ∈ es →
      ∃ pre post, joinNL es = pre ++ e ++ post := by
  intro es
  induction es with
  | nil => intro h; cases h
  | cons x es ih =>
    intro h
    rcases List.mem_cons.mp h with rfl | hmem
    · rcases es with _ | ⟨y, es'⟩
      · exact ⟨[], [], by simp [joinNL]⟩
      · exact ⟨[], '\n' :: joinNL (y :: es'), by simp [joinNL]⟩
    · have hne : es ≠ [] := fun hnil => by rw [hnil] at hmem; cases hmem
      rcases es with _ | ⟨y, es'⟩
      · exact absurd rfl hne
      · obtain ⟨pre, post, heq⟩ := ih hmem
        refine ⟨x ++ '\n' :: pre, post, ?_⟩
        rw [show joinNL (x :: y :: es') = x ++ '\n' :: joinNL (y :: es') from rfl, heq]
        simp [List.append_assoc]

/-- C8: for every sitemap generation with a positive limit, the XML
contains exactly `min limit n` occurrences of `<url>` (where `n` is the
number of unique discovered URLs), `urlCount` equals that number, the
document is wrapped in the `<urlset>` header with the standard sitemap
namespace and the `</urlset>` footer, each included URL appears
XML-escaped between `<loc>` and `</loc>`, and each included URL's
complete `<url>` element carries both a `<loc>` child with the escaped
URL and a `<lastmod>` child with the generation date, closed by
`</url>`. -/
theorem claim_C8_sitemap (api : UrlApi) (g : Graph) (today : List Char)
    (startUrl : String) (maxDepth limit : Nat) (hs : startUrl ≠ "") (hl : limit ≠ 0)
    (htoday : '<' ∉ today) :
    ∃ r, generateSitemap api g today startUrl maxDepth limit = Except.ok r ∧
      r.urlCount =
        min limit (dedupFirst (crawlPageRun api g startUrl maxDepth)).length ∧
      countSub "<url>".data r.sitemapXml =
        min limit (dedupFirst (crawlPageRun api g startUrl maxDepth)).length ∧
      sitemapHeader <+: r.sitemapXml ∧
      sitemapFooter <:+ r.sitemapXml ∧
      (∀ u ∈ (dedupFirst (crawlPageRun api g startUrl maxDepth)).take limit,
        ∃ pre post, r.sitemapXml =
          pre ++ ("<loc>".data ++ escapeXml u.data ++ "</loc>".data) ++ post) ∧
      ∀ u ∈ (dedupFirst (crawlPageRun api g startUrl maxDepth)).take limit,
        ∃ pre post, r.sitemapXml =
          pre ++ ("<url>".data ++ "\n    ".data ++
            ("<loc>".data ++ escapeXml u.data ++ "</loc>".data) ++ "\n    ".data ++
            ("<lastmod>".data ++ today ++ "</lastmod>".data) ++ " \n  ".data ++
            "</url>".data) ++ post := by
  refine ⟨SitemapResult.mk
    (sitemapHeader ++
      joinNL (((dedupFirst (crawlPageRun api g startUrl maxDepth)).take limit).map
        (sitemapEntry today)) ++ sitemapFooter)
    ((dedupFirst (crawlPageRun api g startUrl maxDepth)).take limit).length,
    ?_, ?_, ?_, ?_, ?_, ?_, ?_⟩
  · unfold generateSitemap
    rw [if_neg hs, if_neg hl]
  · simp [List.length_take]
  · have hall : ∀ e ∈ ((dedupFirst (crawlPageRun api g startUrl maxDepth)).take
        limit).map (sitemapEntry today),
        countSub "<url>".data e = 1 ∧ tailFree '<' 4 e := by
      intro e he
      obtain ⟨u, _, rfl⟩ := List.mem_map.mp he
      exact ⟨sitemapEntry_count htoday u, sitemapEntry_tailFree today u⟩
    simp only [List.append_assoc]
    rw [countSub_url_append _ _ (by decide)]
    rw [joinNL_count sitemapFooter _ hall]
    rw [show countSub "<url>".data sitemapHeader = 0 from by decide]
    rw [show countSub "<url>".data sitemapFooter = 0 from by decide]
    simp [List.length_take]
  · simp only [List.append_assoc]
    exact List.prefix_append _ _
  · exact List.suffix_append _ _
  · intro u hu
    have hent : sitemapEntry today u ∈
        ((dedupFirst (crawlPageRun api g startUrl maxDepth)).take limit).map
          (sitemapEntry today) :=
      List.mem_map_of_mem _ hu
    obtain ⟨pre, post, hjoin⟩ := joinNL_mem_split _ hent
    refine ⟨sitemapHeader ++ pre ++ "  <url>\n    ".data,
      "\n    <lastmod>".data ++ today ++ "</lastmod> \n  </url>".data ++ post ++
        sitemapFooter, ?_⟩
    rw [hjoin]
    unfold sitemapEntry
    rw [show "  <url>\n    <loc>".data = "  <url>\n    ".data ++ "<loc>".data from
      by decide]
    rw [show "</loc>\n    <lastmod>".data = "</loc>".data ++ "\n    <lastmod>".data from
      by decide]
    simp [List.append_assoc]
  · intro u hu
    have hent : sitemapEntry today u ∈
        ((dedupFirst (crawlPageRun api g startUrl maxDepth)).take limit).map
          (sitemapEntry today) :=
      List.mem_map_of_mem _ hu
    obtain ⟨pre, post, hjoin⟩ := joinNL_mem_split _ hent
    refine ⟨sitemapHeader ++ pre ++ "  ".data, post ++ sitemapFooter, ?_⟩
    rw [hjoin]
    unfold sitemapEntry
    rw [show "  <url>\n    <loc>".data =
      "  ".data ++ "<url>".data ++ "\n    ".data ++ "<loc>".data from by decide]
    rw [show "</loc>\n    <lastmod>".data =
      "</loc>".data ++ "\n    ".data ++ "<lastmod>".data from by decide]
    rw [show "</lastmod> \n  </url>".data =
      "</lastmod>".data ++ " \n  ".data ++ "</url>".data from by decide]
    simp [List.append_assoc]

/-- Witness for C8 on the concrete two-page site with limit 1. -/
theorem claim_C8_witness :
    "https://a.com/" ≠ "" ∧ (1 : Nat) ≠ 0 ∧ '<' ∉ "2025-01-10".data ∧
      ∃ r, generateSitemap wApi wG "2025-01-10".data "https://a.com/" 1 1 =
          Except.ok r ∧
        r.urlCount =
          min 1 (dedupFirst (crawlPageRun wApi wG "https://a.com/" 1)).length ∧
        countSub "<url>".data r.sitemapXml =
          min 1 (dedupFirst (crawlPageRun wApi wG "https://a.com/" 1)).length ∧
        sitemapHeader <+: r.sitemapXml ∧
        sitemapFooter <:+ r.sitemapXml ∧
        (∀ u ∈ (dedupFirst (crawlPageRun wApi wG "https://a.com/" 1)).take 1,
          ∃ pre post, r.sitemapXml =
            pre ++ ("<loc>".data ++ escapeXml u.data ++ "</loc>".data) ++ post) ∧
        ∀ u ∈ (dedupFirst (crawlPageRun wApi wG "https://a.com/" 1)).take 1,
          ∃ pre post, r.sitemapXml =
            pre ++ ("<url>".data ++ "\n    ".data ++
              ("<loc>".data ++ escapeXml u.data ++ "</loc>".data) ++ "\n    ".data ++
              ("<lastmod>".data ++ "2025-01-10".data ++ "</lastmod>".data) ++
              " \n  ".data ++ "</url>".data) ++ post :=
  ⟨by decide, by decide, by decide,
   claim_C8_sitemap wApi wG "2025-01-10".data "https://a.com/" 1 1
     (by decide) (by decide) (by decide)⟩
